import Mathlib

/-!
Verification of the qibolab / qiboicarusq pulse-sequence compiler and
execution scheduler against its natural-language specification.

The definitions below are a shallow embedding of the Python source:

* `stepGate`, `runQueue`, `calculate_sequence_duration` embed
  `HardwareCircuit._calculate_sequence_duration` (src/qiboicarusq/circuit.py,
  lines 87-110); qubit clocks are rationals (Python floats are rationals) and
  Python exceptions are the `Except` monad.
* `execute_sequence_qubit_times` embeds the timing line of
  `HardwareCircuit._execute_sequence` (line 125).
* `probability_extraction` embeds the static method
  `HardwareCircuit._probability_extraction` (lines 67-85) over the reals,
  with `Real.sign` playing the role of `np.sign` (both map negatives to -1,
  zero to 0 and positives to 1).
* `PulseSequence.compile` embeds `PulseSequence.compile` (lines 34-45);
  the per-pulse `compile` method lives in the `qiboicarusq.pulses` module
  which is not part of the sources, so it is modelled from the spec.
* `execute_select_path`, `RFSOC_RO_sweep_guard`, `HardwareCircuit_call`
  embed the Python-semantics failure points of `HardwareCircuit.execute`
  (line 181), `RFSOC_RO.sweep` (line 311) and `HardwareCircuit.__call__`
  (lines 186-187).
* `demod_I`, `demod_Q` embed the demodulation dot products of
  `RFSOC_RO.process_readout_signal` (src/qibolab/instruments/icarusqfpga.py,
  lines 289-299).
-/

/-- Python exceptions that the embedded fragments can raise. -/
inductive PyError
  | indexError
  | invalidGateError
  | typeError
deriving DecidableEq

/-- Discriminator for the `isinstance` dispatch in
`_calculate_sequence_duration`: `gates.Align`, `gates.CNOT`, or any other
gate (the `else` branch). -/
inductive GateKind
  | align
  | cnot
  | other
deriving DecidableEq

/-- A gate as seen by the scheduler: its kind, its `target_qubits` and
`control_qubits` tuples, and the value of `gate.duration(qubit_config)`
(durations are physical times in ns; the `duration` implementations live in
the missing `qiboicarusq.pulses` module). -/
structure Gate (n : ℕ) where
  kind : GateKind
  targets : List (Fin n)
  controls : List (Fin n)
  duration : ℚ
deriving DecidableEq

/-- The per-qubit clock array `qubit_times`. -/
abbrev QState (n : ℕ) := Fin n → ℚ

/-- One iteration of the loop body of `_calculate_sequence_duration`
(circuit.py lines 89-108).  The first statement `q = gate.target_qubits[0]`
runs before the `isinstance` dispatch, so an empty `target_qubits` tuple
raises `IndexError` for every gate kind; a CNOT additionally indexes
`control_qubits[0]`. -/
def stepGate {n : ℕ} (s : QState n) (g : Gate n) : Except PyError (QState n) :=
  match g.targets.head? with
  | none => .error .indexError
  | some q =>
    match g.kind with
    | .align =>
        let m := g.targets.foldl (fun m p => max m (s p)) 0
        .ok (g.targets.foldl (fun st p => Function.update st p m) s)
    | .cnot =>
        match g.controls.head? with
        | none => .error .indexError
        | some control =>
            let start := max (s q) (s control)
            let s1 := Function.update s q (start + g.duration)
            .ok (Function.update s1 control (s1 q))
    | .other => .ok (Function.update s q (s q + g.duration))

/-- The `for gate in gate_sequence` loop of `_calculate_sequence_duration`,
threading `qubit_times` and propagating the first raised exception. -/
def runQueue {n : ℕ} (s : QState n) : List (Gate n) → Except PyError (QState n)
  | [] => .ok s
  | g :: gs =>
    match stepGate s g with
    | .ok s' => runQueue s' gs
    | .error e => .error e

/-- Embedding of `HardwareCircuit._calculate_sequence_duration`: run the queue starting
from `qubit_times = np.zeros(nqubits)`. -/
def calculate_sequence_duration {n : ℕ} (queue : List (Gate n)) :
    Except PyError (QState n) :=
  runQueue (fun _ => 0) queue

/-- The timing line of `HardwareCircuit._execute_sequence` (circuit.py line
125): `qubit_times = readout_start_time - _calculate_sequence_duration(queue)`
(numpy broadcasts the subtraction over the per-qubit array). -/
def execute_sequence_qubit_times {n : ℕ} (readout_start_time : ℚ)
    (queue : List (Gate n)) : Except PyError (QState n) :=
  (calculate_sequence_duration queue).map (fun d q => readout_start_time - d q)

/-- Embedding of `HardwareCircuit._probability_extraction` (circuit.py lines 67-85) over
the reals.  After translating by `refer_0`, the rotation angle is
`arccos(refer_1.x / |refer_1|) * np.sign(refer_1.y)`; the rotated data
x-coordinate is clipped to `[0, rotated refer_1.x]` and divided by the
rotated `refer_1` x-coordinate.  (The rotated data y-coordinate is computed
by the source but never used in the returned value.) -/
noncomputable def probability_extraction (data refer_0 refer_1 : ℝ × ℝ) : ℝ :=
  let r1x := refer_1.1 - refer_0.1
  let r1y := refer_1.2 - refer_0.2
  let dx := data.1 - refer_0.1
  let dy := data.2 - refer_0.2
  let angle := Real.arccos (r1x / Real.sqrt (r1x ^ 2 + r1y ^ 2)) * Real.sign r1y
  let ndx := dx * Real.cos angle + dy * Real.sin angle
  let nrx := r1x * Real.cos angle + r1y * Real.sin angle
  let ndxClipped := if ndx < 0 then 0 else if nrx < ndx then nrx else ndx
  ndxClipped / nrx

/-- A pulse as seen by the waveform compiler: destination channel, resolved
sample window `[startIdx, endIdx)` inside the fixed-size buffer, and the
rendered (envelope-modulated) sample values over that window. -/
structure MPulse (nchannels sample_size : ℕ) where
  channel : Fin nchannels
  startIdx : ℕ
  endIdx : ℕ
  envelope : ℕ → ℝ

/-- Modelled from the spec: the per-pulse `compile` method lives in the
`qiboicarusq.pulses` module, which is not among the sources.  Spec 4.2:
render the envelope over the pulse's sample window, then accumulate (sum,
not overwrite) into the destination channel's sample window, leaving every
other entry of the waveform array untouched. -/
def MPulse.compileInto {nch ss : ℕ} (p : MPulse nch ss)
    (w : Fin nch → Fin ss → ℝ) : Fin nch → Fin ss → ℝ :=
  fun c i =>
    if c = p.channel ∧ p.startIdx ≤ (i : ℕ) ∧ (i : ℕ) < p.endIdx then
      w c i + p.envelope i
    else w c i

/-- The pulse container of `PulseSequence` (circuit.py lines 9-32), reduced
to the field its `compile` method reads. -/
structure PulseSequence (nchannels sample_size : ℕ) where
  pulses : List (MPulse nchannels sample_size)

/-- Embedding of `PulseSequence.compile` (circuit.py lines 34-45): start from
`np.zeros((nchannels, sample_size))` and fold every pulse's `compile` over
the waveform array in program order. -/
def PulseSequence.compile {nch ss : ℕ} (seq : PulseSequence nch ss) :
    Fin nch → Fin ss → ℝ :=
  seq.pulses.foldl (fun w p => p.compileInto w) (fun _ _ => 0)

/-- The two execution paths of `HardwareCircuit.execute`. -/
inductive ExecPath
  | tomography
  | singleSequence
deriving DecidableEq

/-- Python `len` applied to a `bool`: `bool` defines no `__len__`, so every
such call raises `TypeError` (`object of type 'bool' has no len()`). -/
def pyLenOfBool (_b : Bool) : Except PyError ℕ := .error .typeError

/-- The branch selection of `HardwareCircuit.execute` (circuit.py line 181):
`if len(scheduler.check_tomography_required() or self._density_matrix):`.
Modelled from the spec: `scheduler.check_tomography_required` is not among
the sources; spec 4.5 types it `tomography_required() -> bool`, so the
Python `or` of the two booleans is their disjunction and `len` is applied
to a `bool`. -/
def execute_select_path (tomography_required density_matrix : Bool) :
    Except PyError ExecPath :=
  match pyLenOfBool (tomography_required || density_matrix) with
  | .error e => .error e
  | .ok l => if l ≠ 0 then .ok .tomography else .ok .singleSequence

/-- Python comparison of a tuple with an int (`sweeper > 1` where `sweeper`
is the varargs tuple): tuples and ints are not orderable, so every such
comparison raises `TypeError`. -/
def pyGtTupleInt {α : Type} (_sweeper : List α) (_bound : ℤ) :
    Except PyError Bool :=
  .error .typeError

/-- Outcome of the guard at the top of `RFSOC_RO.sweep`. -/
inductive SweepGuard
  | raiseNotImplemented
  | proceed
deriving DecidableEq

/-- The guard `if len(sweeper > 1): raise NotImplementedError` of
`RFSOC_RO.sweep` (icarusqfpga.py lines 308-312): Python first evaluates
`sweeper > 1` (tuple vs int), then would apply `len` to the resulting bool,
then would branch. -/
def RFSOC_RO_sweep_guard {α : Type} (sweeper : List α) :
    Except PyError SweepGuard :=
  match pyGtTupleInt sweeper 1 with
  | .error e => .error e
  | .ok b =>
    match pyLenOfBool b with
    | .error e => .error e
    | .ok l => if l ≠ 0 then .ok .raiseNotImplemented else .ok .proceed

/-- Python positional-argument binding for
`HardwareCircuit.execute(self, initial_state=None, nshots=None)`: at most
two positional arguments (beyond `self`) can be bound; a third raises
`TypeError` before the body runs. -/
def execute_bind_args {α : Type} (noneDefault : α) (args : List α) :
    Except PyError (α × α) :=
  match args with
  | [] => .ok (noneDefault, noneDefault)
  | [a] => .ok (a, noneDefault)
  | [a, b] => .ok (a, b)
  | _ => .error .typeError

/-- Embedding of `HardwareCircuit.__call__` (circuit.py lines 186-187): forwards three
positional arguments `(initial_state, nshots, measurement_level)` to
`execute`. -/
def HardwareCircuit_call {α : Type} (noneDefault initial_state nshots
    measurement_level : α) : Except PyError (α × α) :=
  execute_bind_args noneDefault [initial_state, nshots, measurement_level]

/-- The demodulation reference named `cos` in
`RFSOC_RO.process_readout_signal` (icarusqfpga.py line 295): the source
computes it with `np.sin`, not `np.cos`. -/
noncomputable def demod_cos_ref (frequency adc_sampling_rate : ℝ) (k : ℕ) : ℝ :=
  Real.sin (2 * Real.pi * frequency * (k / adc_sampling_rate))

/-- The demodulation reference named `sin` in
`RFSOC_RO.process_readout_signal` (icarusqfpga.py line 294). -/
noncomputable def demod_sin_ref (frequency adc_sampling_rate : ℝ) (k : ℕ) : ℝ :=
  Real.sin (2 * Real.pi * frequency * (k / adc_sampling_rate))

/-- Embedding of `I = np.dot(raw_signal, cos)` (icarusqfpga.py line 297). -/
noncomputable def demod_I (raw : ℕ → ℝ) (frequency adc_sampling_rate : ℝ)
    (nsamples : ℕ) : ℝ :=
  ∑ k ∈ Finset.range nsamples, raw k * demod_cos_ref frequency adc_sampling_rate k

/-- Embedding of `Q = np.dot(raw_signal, sin)` (icarusqfpga.py line 298). -/
noncomputable def demod_Q (raw : ℕ → ℝ) (frequency adc_sampling_rate : ℝ)
    (nsamples : ℕ) : ℝ :=
  ∑ k ∈ Finset.range nsamples, raw k * demod_sin_ref frequency adc_sampling_rate k

/-! ## Helper lemmas -/

theorem stepGate_error_eq {n : ℕ} (s : QState n) (g : Gate n) (e : PyError)
    (h : stepGate s g = .error e) : e = PyError.indexError := by
  unfold stepGate at h
  cases ht : g.targets.head? with
  | none =>
    rw [ht] at h
    exact (Except.error.inj h).symm
  | some q =>
    rw [ht] at h
    cases hk : g.kind with
    | align => rw [hk] at h; simp at h
    | cnot =>
      rw [hk] at h
      cases hc : g.controls.head? with
      | none => rw [hc] at h; exact (Except.error.inj h).symm
      | some c => rw [hc] at h; simp at h
    | other => rw [hk] at h; simp at h

theorem runQueue_error_eq {n : ℕ} (queue : List (Gate n)) (s : QState n)
    (e : PyError) (h : runQueue s queue = .error e) : e = PyError.indexError := by
  induction queue generalizing s with
  | nil => simp [runQueue] at h
  | cons g gs ih =>
    simp only [runQueue] at h
    cases hstep : stepGate s g with
    | error e' =>
      rw [hstep] at h
      have he' := stepGate_error_eq s g e' hstep
      rw [← Except.error.inj h]
      exact he'
    | ok s1 =>
      rw [hstep] at h
      exact ih s1 h

theorem runQueue_empty_targets_error {n : ℕ} (queue : List (Gate n))
    (s : QState n) (h : ∃ g ∈ queue, g.targets = []) :
    runQueue s queue = .error PyError.indexError := by
  induction queue generalizing s with
  | nil => simp at h
  | cons g gs ih =>
    by_cases hg : g.targets = []
    · have hstep : stepGate s g = .error .indexError := by
        unfold stepGate
        rw [hg]
        rfl
      simp only [runQueue, hstep]
    · obtain ⟨g', hg', ht⟩ := h
      rcases List.mem_cons.mp hg' with rfl | hmem
      · exact absurd ht hg
      · cases hstep : stepGate s g with
        | error e =>
          have he := stepGate_error_eq s g e hstep
          subst he
          simp only [runQueue, hstep]
        | ok s1 =>
          simp only [runQueue, hstep]
          exact ih s1 ⟨g', hmem, ht⟩

/-! ## Claims -/

/-- C7: with a measurement gate registered and default initial state,
`execute` reaches `if len(check_tomography_required() or density_matrix):`
and, because both operands are booleans, `len` raises `TypeError` for every
combination of the tomography flag and the density-matrix mode — neither the
tomography path nor the single-sequence path is ever selected. -/
theorem execute_select_path_type_error (tomography_required density_matrix : Bool) :
    execute_select_path tomography_required density_matrix =
      .error PyError.typeError := rfl

/-- C8: `RFSOC_RO.sweep` evaluates `len(sweeper > 1)`; for every call with
at least one sweeper the tuple-int comparison raises `TypeError` before any
sweep value is applied, and the `NotImplementedError` branch is never
reached. -/
theorem sweep_guard_type_error {α : Type} (sweeper : List α)
    (h : sweeper ≠ []) :
    RFSOC_RO_sweep_guard sweeper = .error PyError.typeError ∧
      RFSOC_RO_sweep_guard sweeper ≠ .ok .raiseNotImplemented := by
  refine ⟨rfl, ?_⟩
  intro hcontra
  exact Except.noConfusion hcontra

theorem sweep_guard_type_error_witness :
    ([()] : List Unit) ≠ [] ∧
      (RFSOC_RO_sweep_guard ([()] : List Unit) = .error PyError.typeError ∧
        RFSOC_RO_sweep_guard ([()] : List Unit) ≠ .ok .raiseNotImplemented) :=
  ⟨by decide, sweep_guard_type_error [()] (by decide)⟩

/-- C9: `HardwareCircuit.__call__` forwards three positional arguments
`(initial_state, nshots, measurement_level)` to `execute`, which accepts
only two, so every invocation raises `TypeError` before any scheduling or
hardware dispatch. -/
theorem hardware_circuit_call_type_error {α : Type}
    (noneDefault initial_state nshots measurement_level : α) :
    HardwareCircuit_call noneDefault initial_state nshots measurement_level =
      .error PyError.typeError := rfl

/-- C10: in `RFSOC_RO.process_readout_signal` both demodulation reference
vectors are built with `np.sin` of the same argument (the variable named
`cos` included), so the returned I and Q components coincide for every raw
ADC signal and readout pulse. -/
theorem demod_I_eq_demod_Q (raw : ℕ → ℝ) (frequency adc_sampling_rate : ℝ)
    (nsamples : ℕ) :
    demod_I raw frequency adc_sampling_rate nsamples =
      demod_Q raw frequency adc_sampling_rate nsamples := rfl

/-- C6 (amended): a gate whose `target_qubits` tuple is empty makes
`_calculate_sequence_duration` fail with an `IndexError` (from
`gate.target_qubits[0]`), not an `InvalidGateError`; an empty queue returns
the all-zero duration vector without error. -/
theorem empty_targets_scheduling {n : ℕ} (queue : List (Gate n))
    (h : ∃ g ∈ queue, g.targets = []) :
    calculate_sequence_duration queue = .error PyError.indexError ∧
      calculate_sequence_duration ([] : List (Gate n)) = .ok (fun _ => 0) :=
  ⟨runQueue_empty_targets_error queue _ h, rfl⟩

theorem empty_targets_scheduling_witness :
    (∃ g ∈ ([⟨GateKind.other, [], [], 0⟩] : List (Gate 1)), g.targets = []) ∧
      (calculate_sequence_duration
          ([⟨GateKind.other, [], [], 0⟩] : List (Gate 1)) =
          .error PyError.indexError ∧
        calculate_sequence_duration ([] : List (Gate 1)) = .ok (fun _ => 0)) :=
  ⟨by decide, empty_targets_scheduling _ (by decide)⟩

/-- C6 (counterexample to the claim as stated): scheduling a queue holding a
gate with no target qubits fails with `IndexError`, which is not the
`InvalidGateError` the claim names. -/
theorem empty_targets_not_invalid_gate_error :
    calculate_sequence_duration ([⟨GateKind.other, [], [], 0⟩] : List (Gate 1)) =
        .error PyError.indexError ∧
      (Except.error PyError.indexError : Except PyError (QState 1)) ≠
        Except.error PyError.invalidGateError := by
  refine ⟨rfl, ?_⟩
  intro hcontra
  exact PyError.noConfusion (Except.error.inj hcontra)

theorem runQueue_singles {n : ℕ} (queue : List (Gate n))
    (h : ∀ g ∈ queue, g.kind = GateKind.other ∧ ∃ q, g.targets = [q])
    (s : QState n) :
    runQueue s queue = .ok (fun q => s q +
      ((queue.filter (fun g => decide (q ∈ g.targets))).map Gate.duration).sum) := by
  induction queue generalizing s with
  | nil => simp [runQueue]
  | cons g gs ih =>
    obtain ⟨hk, q0, hq0⟩ := h g (List.mem_cons_self g gs)
    have hstep : stepGate s g = .ok (Function.update s q0 (s q0 + g.duration)) := by
      unfold stepGate
      rw [hq0, hk]
      rfl
    simp only [runQueue, hstep]
    rw [ih (fun g' hg' => h g' (List.mem_cons_of_mem _ hg'))]
    congr 1
    funext q
    by_cases hqq : q = q0
    · subst hqq
      simp [Function.update_same, hq0, List.filter_cons]
      ring
    · simp [Function.update_noteq hqq, hq0, List.filter_cons, hqq]

/-- C1: with no two-qubit gates and no barriers in the queue,
`_execute_sequence` assigns every qubit `q` the final start time
`readout_start_time - Σ(durations of the gates targeting q)`, i.e.
`qubit_times = readout_start_time - _calculate_sequence_duration(queue)`, so
every qubit's drive sequence ends exactly at the shared readout instant. -/
theorem scheduler_backward_start_times {n : ℕ} (readout_start_time : ℚ)
    (queue : List (Gate n))
    (h : ∀ g ∈ queue, g.kind = GateKind.other ∧ ∃ q, g.targets = [q]) :
    execute_sequence_qubit_times readout_start_time queue =
      .ok (fun q => readout_start_time -
        ((queue.filter (fun g => decide (q ∈ g.targets))).map Gate.duration).sum) := by
  unfold execute_sequence_qubit_times calculate_sequence_duration
  rw [runQueue_singles queue h]
  simp [Except.map]

theorem scheduler_backward_start_times_witness :
    (∀ g ∈ ([⟨GateKind.other, [0], [], 2⟩, ⟨GateKind.other, [0], [], 3⟩,
        ⟨GateKind.other, [1], [], 4⟩] : List (Gate 2)),
      g.kind = GateKind.other ∧ ∃ q, g.targets = [q]) ∧
    execute_sequence_qubit_times 10
        ([⟨GateKind.other, [0], [], 2⟩, ⟨GateKind.other, [0], [], 3⟩,
          ⟨GateKind.other, [1], [], 4⟩] : List (Gate 2)) =
      .ok (fun q => 10 -
        ((([⟨GateKind.other, [0], [], 2⟩, ⟨GateKind.other, [0], [], 3⟩,
            ⟨GateKind.other, [1], [], 4⟩] : List (Gate 2)).filter
          (fun g => decide (q ∈ g.targets))).map Gate.duration).sum) :=
  ⟨by decide, scheduler_backward_start_times 10 _ (by decide)⟩

theorem foldl_max_spec {n : ℕ} (s : QState n) (l : List (Fin n)) (a : ℚ) :
    (l.foldl (fun b p => max b (s p)) a = a ∨
      ∃ p ∈ l, l.foldl (fun b p => max b (s p)) a = s p) ∧
    a ≤ l.foldl (fun b p => max b (s p)) a ∧
    ∀ p ∈ l, s p ≤ l.foldl (fun b p => max b (s p)) a := by
  induction l generalizing a with
  | nil => simp
  | cons p l ih =>
    simp only [List.foldl_cons]
    obtain ⟨h1, h2, h3⟩ := ih (max a (s p))
    refine ⟨?_, le_trans (le_max_left _ _) h2, ?_⟩
    · rcases h1 with h1 | ⟨q, hq, h1⟩
      · rcases max_choice a (s p) with hm | hm
        · exact Or.inl (by rw [h1, hm])
        · exact Or.inr ⟨p, List.mem_cons_self _ _, by rw [h1, hm]⟩
      · exact Or.inr ⟨q, List.mem_cons_of_mem _ hq, h1⟩
    · intro q hq
      rcases List.mem_cons.mp hq with rfl | hq
      · exact le_trans (le_max_right a (s q)) h2
      · exact h3 q hq

theorem foldl_update_const {n : ℕ} (s : QState n) (l : List (Fin n)) (m : ℚ)
    (q : Fin n) :
    (l.foldl (fun st p => Function.update st p m) s) q =
      if q ∈ l then m else s q := by
  induction l generalizing s with
  | nil => simp
  | cons p l ih =>
    simp only [List.foldl_cons]
    rw [ih]
    by_cases hq : q ∈ l
    · simp [hq]
    · by_cases hqp : q = p
      · subst hqp
        simp [hq, Function.update_same]
      · simp [hq, hqp, Function.update_noteq hqp]

theorem stepGate_nonneg {n : ℕ} (s : QState n) (g : Gate n) (s' : QState n)
    (hd : 0 ≤ g.duration) (hs : ∀ i, 0 ≤ s i)
    (h : stepGate s g = .ok s') : ∀ i, 0 ≤ s' i := by
  intro i
  cases ht : g.targets.head? with
  | none => simp [stepGate, ht] at h
  | some q =>
    cases hk : g.kind with
    | align =>
      simp only [stepGate, ht, hk] at h
      rw [← Except.ok.inj h, foldl_update_const]
      split
      · exact (foldl_max_spec s g.targets 0).2.1
      · exact hs i
    | cnot =>
      cases hc : g.controls.head? with
      | none => simp [stepGate, ht, hk, hc] at h
      | some c =>
        simp only [stepGate, ht, hk, hc] at h
        have hX : 0 ≤ max (s q) (s c) + g.duration :=
          add_nonneg (le_trans (hs q) (le_max_left _ _)) hd
        rw [← Except.ok.inj h]
        simp only [Function.update_apply]
        split_ifs <;> first | exact hX | exact hs i
    | other =>
      simp only [stepGate, ht, hk] at h
      rw [← Except.ok.inj h]
      simp only [Function.update_apply]
      split_ifs
      · exact add_nonneg (hs q) hd
      · exact hs i

theorem runQueue_nonneg {n : ℕ} (queue : List (Gate n)) (s s' : QState n)
    (hd : ∀ g ∈ queue, 0 ≤ g.duration) (hs : ∀ i, 0 ≤ s i)
    (h : runQueue s queue = .ok s') : ∀ i, 0 ≤ s' i := by
  induction queue generalizing s with
  | nil =>
    simp only [runQueue] at h
    rw [← Except.ok.inj h]
    exact hs
  | cons g gs ih =>
    simp only [runQueue] at h
    cases hstep : stepGate s g with
    | error e => rw [hstep] at h; simp at h
    | ok s1 =>
      rw [hstep] at h
      exact ih s1 (fun g' hg' => hd g' (List.mem_cons_of_mem _ hg'))
        (stepGate_nonneg s g s1 (hd g (List.mem_cons_self g gs)) hs hstep)
        h

/-- C3: for every gate queue processed by `_calculate_sequence_duration`
(gate durations being nonnegative physical times), immediately after an
`Align` gate every qubit in its target set holds the same clock value, and
that value equals the maximum over the target set of the clock values held
just before the `Align`. -/
theorem align_synchronizes {n : ℕ} (pre : List (Gate n)) (g : Gate n)
    (s s' : QState n)
    (hpre : ∀ g' ∈ pre, 0 ≤ g'.duration)
    (hrun : runQueue (fun _ => 0) pre = .ok s)
    (hkind : g.kind = GateKind.align)
    (hstep : stepGate s g = .ok s') :
    (∀ p ∈ g.targets, ∀ q ∈ g.targets, s' p = s' q) ∧
    (∀ p ∈ g.targets, (∀ q ∈ g.targets, s q ≤ s' p) ∧
      ∃ q ∈ g.targets, s' p = s q) := by
  have hs : ∀ i, 0 ≤ s i :=
    runQueue_nonneg pre (fun _ => 0) s hpre (fun _ => le_refl 0) hrun
  cases ht : g.targets.head? with
  | none => simp [stepGate, ht] at hstep
  | some q0 =>
    have hq0 : q0 ∈ g.targets := by
      cases hl : g.targets with
      | nil => rw [hl] at ht; simp at ht
      | cons a l =>
        rw [hl] at ht
        simp only [List.head?_cons, Option.some.injEq] at ht
        rw [← ht]
        exact List.mem_cons_self _ _
    simp only [stepGate, ht, hkind] at hstep
    rw [← Except.ok.inj hstep]
    obtain ⟨h1, h2, h3⟩ := foldl_max_spec s g.targets 0
    have hach : ∃ p ∈ g.targets,
        g.targets.foldl (fun b p => max b (s p)) 0 = s p := by
      rcases h1 with h1 | h1
      · refine ⟨q0, hq0, ?_⟩
        have hle := h3 q0 hq0
        have hge := hs q0
        rw [h1] at hle ⊢
        linarith
      · exact h1
    constructor
    · intro p hp q hq
      rw [foldl_update_const, foldl_update_const, if_pos hp, if_pos hq]
    · intro p hp
      rw [foldl_update_const, if_pos hp]
      exact ⟨h3, hach⟩

theorem align_synchronizes_witness :
    ∃ s', stepGate (fun _ => (0 : ℚ))
        (⟨GateKind.align, [0, 1], [], 0⟩ : Gate 2) = .ok s' ∧
      ((∀ p ∈ [(0 : Fin 2), 1], ∀ q ∈ [(0 : Fin 2), 1], s' p = s' q) ∧
       (∀ p ∈ [(0 : Fin 2), 1], (∀ q ∈ [(0 : Fin 2), 1], (0 : ℚ) ≤ s' p) ∧
         ∃ q ∈ [(0 : Fin 2), 1], s' p = 0)) := by
  refine ⟨_, rfl, ?_⟩
  exact align_synchronizes [] (⟨GateKind.align, [0, 1], [], 0⟩ : Gate 2)
    (fun _ => 0) _ (by simp) rfl rfl rfl

/-- C4: for every gate queue processed by `_calculate_sequence_duration`,
immediately after a two-qubit controlled gate on `(control, target)` the
control clock equals the target clock, and both equal the maximum of the
two pre-gate clock values plus the gate's duration. -/
theorem cnot_synchronizes {n : ℕ} (pre : List (Gate n)) (g : Gate n)
    (s s' : QState n) (q c : Fin n)
    (hrun : runQueue (fun _ => 0) pre = .ok s)
    (hkind : g.kind = GateKind.cnot)
    (hq : g.targets.head? = some q)
    (hc : g.controls.head? = some c)
    (hstep : stepGate s g = .ok s') :
    s' c = s' q ∧ s' q = max (s q) (s c) + g.duration := by
  simp only [stepGate, hq, hkind, hc] at hstep
  rw [← Except.ok.inj hstep]
  by_cases hqc : q = c
  · subst hqc
    simp [Function.update_same]
  · constructor
    · rw [Function.update_same, Function.update_noteq hqc,
        Function.update_same]
    · rw [Function.update_noteq hqc, Function.update_same]

theorem cnot_synchronizes_witness :
    ∃ s', stepGate (fun _ => (0 : ℚ))
        (⟨GateKind.cnot, [0], [1], 2⟩ : Gate 2) = .ok s' ∧
      (s' 1 = s' 0 ∧ s' 0 = max (0 : ℚ) 0 + 2) := by
  refine ⟨_, rfl, ?_⟩
  exact cnot_synchronizes [] (⟨GateKind.cnot, [0], [1], 2⟩ : Gate 2)
    (fun _ => 0) _ 0 1 rfl rfl rfl rfl rfl

/-- C5: waveform compilation is additive per channel: for two pulses with
non-overlapping sample windows on the same channel, compiling the two-pulse
sequence yields the pointwise sum of the waveforms obtained by compiling
each pulse alone; on different channels each pulse's channel equals its
single-pulse result, the other channel being unaffected. -/
theorem compile_superposition {nch ss : ℕ} (p1 p2 : MPulse nch ss) :
    ((p1.channel = p2.channel ∧
        (p1.endIdx ≤ p2.startIdx ∨ p2.endIdx ≤ p1.startIdx)) →
      ∀ c i, PulseSequence.compile ⟨[p1, p2]⟩ c i =
        PulseSequence.compile ⟨[p1]⟩ c i + PulseSequence.compile ⟨[p2]⟩ c i) ∧
    (p1.channel ≠ p2.channel →
      (∀ i, PulseSequence.compile ⟨[p1, p2]⟩ p1.channel i =
          PulseSequence.compile ⟨[p1]⟩ p1.channel i) ∧
      (∀ i, PulseSequence.compile ⟨[p1, p2]⟩ p2.channel i =
          PulseSequence.compile ⟨[p2]⟩ p2.channel i)) := by
  constructor
  · intro _hyp c i
    simp only [PulseSequence.compile, List.foldl, MPulse.compileInto]
    split_ifs <;> ring
  · intro hne
    constructor <;> intro i
    · simp only [PulseSequence.compile, List.foldl, MPulse.compileInto]
      simp [hne]
    · simp only [PulseSequence.compile, List.foldl, MPulse.compileInto]
      simp [Ne.symm hne]

theorem compile_superposition_witness :
    (((⟨0, 0, 2, fun _ => 1⟩ : MPulse 2 4).channel =
          (⟨0, 2, 4, fun _ => 1⟩ : MPulse 2 4).channel ∧
        ((⟨0, 0, 2, fun _ => (1 : ℝ)⟩ : MPulse 2 4).endIdx ≤
            (⟨0, 2, 4, fun _ => 1⟩ : MPulse 2 4).startIdx ∨
          (⟨0, 2, 4, fun _ => (1 : ℝ)⟩ : MPulse 2 4).endIdx ≤
            (⟨0, 0, 2, fun _ => 1⟩ : MPulse 2 4).startIdx)) ∧
      (∀ c i, PulseSequence.compile
          ⟨[⟨0, 0, 2, fun _ => 1⟩, ⟨0, 2, 4, fun _ => 1⟩]⟩ c i =
        PulseSequence.compile ⟨[(⟨0, 0, 2, fun _ => 1⟩ : MPulse 2 4)]⟩ c i +
          PulseSequence.compile ⟨[(⟨0, 2, 4, fun _ => 1⟩ : MPulse 2 4)]⟩ c i)) ∧
    ((⟨0, 0, 2, fun _ => (1 : ℝ)⟩ : MPulse 2 4).channel ≠
        (⟨1, 0, 2, fun _ => 1⟩ : MPulse 2 4).channel ∧
      ((∀ i, PulseSequence.compile
            ⟨[⟨0, 0, 2, fun _ => 1⟩, ⟨1, 0, 2, fun _ => 1⟩]⟩
            (⟨0, 0, 2, fun _ => (1 : ℝ)⟩ : MPulse 2 4).channel i =
          PulseSequence.compile ⟨[(⟨0, 0, 2, fun _ => 1⟩ : MPulse 2 4)]⟩
            (⟨0, 0, 2, fun _ => (1 : ℝ)⟩ : MPulse 2 4).channel i) ∧
        (∀ i, PulseSequence.compile
            ⟨[⟨0, 0, 2, fun _ => 1⟩, ⟨1, 0, 2, fun _ => 1⟩]⟩
            (⟨1, 0, 2, fun _ => (1 : ℝ)⟩ : MPulse 2 4).channel i =
          PulseSequence.compile ⟨[(⟨1, 0, 2, fun _ => 1⟩ : MPulse 2 4)]⟩
            (⟨1, 0, 2, fun _ => (1 : ℝ)⟩ : MPulse 2 4).channel i))) :=
  ⟨⟨⟨rfl, Or.inl (by decide)⟩,
      (compile_superposition ⟨0, 0, 2, fun _ => 1⟩ ⟨0, 2, 4, fun _ => 1⟩).1
        ⟨rfl, Or.inl (by decide)⟩⟩,
    ⟨by decide,
      (compile_superposition ⟨0, 0, 2, fun _ => 1⟩ ⟨1, 0, 2, fun _ => 1⟩).2
        (by decide)⟩⟩

theorem arccos_cos_sin_ratio (x y : ℝ) (hy : y ≠ 0) :
    Real.cos (Real.arccos (x / Real.sqrt (x ^ 2 + y ^ 2))) =
      x / Real.sqrt (x ^ 2 + y ^ 2) ∧
    Real.sin (Real.arccos (x / Real.sqrt (x ^ 2 + y ^ 2))) =
      |y| / Real.sqrt (x ^ 2 + y ^ 2) := by
  have hy2 : 0 < y ^ 2 := by
    rcases lt_or_gt_of_ne hy with h | h
    · nlinarith
    · nlinarith
  have hpos : 0 < x ^ 2 + y ^ 2 := by nlinarith [sq_nonneg x]
  have hr : 0 < Real.sqrt (x ^ 2 + y ^ 2) := Real.sqrt_pos.mpr hpos
  have hr2 : Real.sqrt (x ^ 2 + y ^ 2) ^ 2 = x ^ 2 + y ^ 2 := Real.sq_sqrt hpos.le
  have habs : |x| ≤ Real.sqrt (x ^ 2 + y ^ 2) := by
    rw [← Real.sqrt_sq_eq_abs]
    exact Real.sqrt_le_sqrt (by nlinarith [sq_nonneg y])
  obtain ⟨hx1, hx2⟩ := abs_le.mp habs
  constructor
  · exact Real.cos_arccos (by rw [le_div_iff₀ hr]; linarith)
      ((div_le_one hr).mpr hx2)
  · rw [Real.sin_arccos]
    have key : 1 - (x / Real.sqrt (x ^ 2 + y ^ 2)) ^ 2 =
        (|y| / Real.sqrt (x ^ 2 + y ^ 2)) ^ 2 := by
      rw [div_pow, div_pow, sq_abs, hr2]
      field_simp
    rw [key, Real.sqrt_sq (by positivity)]

theorem rotated_refer_x {x y : ℝ} (h : y = 0 → 0 < x) :
    x * Real.cos (Real.arccos (x / Real.sqrt (x ^ 2 + y ^ 2)) * Real.sign y) +
      y * Real.sin (Real.arccos (x / Real.sqrt (x ^ 2 + y ^ 2)) * Real.sign y) =
      Real.sqrt (x ^ 2 + y ^ 2) := by
  rcases lt_trichotomy y 0 with hy | hy | hy
  · obtain ⟨hc, hs⟩ := arccos_cos_sin_ratio x y hy.ne
    have hpos : 0 < x ^ 2 + y ^ 2 := by nlinarith [sq_nonneg x]
    have hr : 0 < Real.sqrt (x ^ 2 + y ^ 2) := Real.sqrt_pos.mpr hpos
    have hr2 : Real.sqrt (x ^ 2 + y ^ 2) ^ 2 = x ^ 2 + y ^ 2 := Real.sq_sqrt hpos.le
    rw [Real.sign_of_neg hy, mul_neg_one, Real.cos_neg, Real.sin_neg, hc, hs,
      abs_of_neg hy]
    field_simp
    nlinarith [hr2]
  · have hx := h hy
    subst hy
    rw [Real.sign_zero, mul_zero, Real.cos_zero, Real.sin_zero]
    norm_num
    rw [Real.sqrt_sq hx.le]
  · obtain ⟨hc, hs⟩ := arccos_cos_sin_ratio x y hy.ne'
    have hpos : 0 < x ^ 2 + y ^ 2 := by nlinarith [sq_nonneg x]
    have hr : 0 < Real.sqrt (x ^ 2 + y ^ 2) := Real.sqrt_pos.mpr hpos
    have hr2 : Real.sqrt (x ^ 2 + y ^ 2) ^ 2 = x ^ 2 + y ^ 2 := Real.sq_sqrt hpos.le
    rw [Real.sign_of_pos hy, mul_one, hc, hs, abs_of_pos hy]
    field_simp
    nlinarith [hr2]

/-- C2 (amended): provided `refer_1 - refer_0` does not lie on the closed
leftward horizontal ray (`refer_1.y = refer_0.y` with `refer_1.x < refer_0.x`
breaks the rotation because `np.sign(0) = 0` nullifies the angle),
`_probability_extraction` returns a value in `[0, 1]` for every data point,
`0` at `refer_0` and `1` at `refer_1`. -/
theorem probability_extraction_in_unit_interval (refer_0 refer_1 : ℝ × ℝ)
    (h0 : refer_0 ≠ refer_1)
    (h1 : ¬(refer_1.2 = refer_0.2 ∧ refer_1.1 < refer_0.1)) :
    (∀ data, 0 ≤ probability_extraction data refer_0 refer_1 ∧
      probability_extraction data refer_0 refer_1 ≤ 1) ∧
    probability_extraction refer_0 refer_0 refer_1 = 0 ∧
    probability_extraction refer_1 refer_0 refer_1 = 1 := by
  have hcond : refer_1.2 - refer_0.2 = 0 → 0 < refer_1.1 - refer_0.1 := by
    intro hy
    have hyy : refer_1.2 = refer_0.2 := by linarith
    have hxge : ¬ refer_1.1 < refer_0.1 := fun hx => h1 ⟨hyy, hx⟩
    have hle : refer_0.1 ≤ refer_1.1 := not_lt.mp hxge
    have hne : refer_0.1 ≠ refer_1.1 :=
      fun hx => h0 (Prod.ext_iff.mpr ⟨hx, hyy.symm⟩)
    have := lt_of_le_of_ne hle hne
    linarith
  have hkey := @rotated_refer_x (refer_1.1 - refer_0.1) (refer_1.2 - refer_0.2)
    hcond
  have hpos : 0 < (refer_1.1 - refer_0.1) ^ 2 + (refer_1.2 - refer_0.2) ^ 2 := by
    rcases eq_or_ne (refer_1.2 - refer_0.2) 0 with hy | hy
    · have := hcond hy
      rw [hy]
      nlinarith
    · have hy2 : 0 < (refer_1.2 - refer_0.2) ^ 2 := by
        rcases lt_or_gt_of_ne hy with h | h
        · nlinarith
        · nlinarith
      nlinarith [sq_nonneg (refer_1.1 - refer_0.1)]
  have hr : 0 < Real.sqrt ((refer_1.1 - refer_0.1) ^ 2 +
      (refer_1.2 - refer_0.2) ^ 2) := Real.sqrt_pos.mpr hpos
  refine ⟨fun data => ?_, ?_, ?_⟩
  · simp only [probability_extraction]
    rw [hkey]
    constructor
    · split_ifs with hA hB
      · simp
      · exact div_nonneg hr.le hr.le
      · exact div_nonneg (not_lt.mp hA) hr.le
    · split_ifs with hA hB
      · rw [zero_div]
        exact zero_le_one
      · rw [div_self hr.ne']
      · exact (div_le_one hr).mpr (not_lt.mp hB)
  · simp only [probability_extraction]
    rw [hkey]
    simp only [sub_self, zero_mul, add_zero, zero_add]
    rw [if_neg (lt_irrefl 0), if_neg (not_lt.mpr hr.le), zero_div]
  · simp only [probability_extraction]
    rw [hkey]
    rw [if_neg (not_lt.mpr hr.le), if_neg (lt_irrefl _), div_self hr.ne']

theorem probability_extraction_witness :
    (((0 : ℝ), (0 : ℝ)) ≠ ((1 : ℝ), (0 : ℝ))) ∧
    ¬((((1 : ℝ), (0 : ℝ)) : ℝ × ℝ).2 = (((0 : ℝ), (0 : ℝ)) : ℝ × ℝ).2 ∧
        (((1 : ℝ), (0 : ℝ)) : ℝ × ℝ).1 < (((0 : ℝ), (0 : ℝ)) : ℝ × ℝ).1) ∧
    ((∀ data, 0 ≤ probability_extraction data (0, 0) (1, 0) ∧
        probability_extraction data (0, 0) (1, 0) ≤ 1) ∧
      probability_extraction (0, 0) (0, 0) (1, 0) = 0 ∧
      probability_extraction (1, 0) (0, 0) (1, 0) = 1) :=
  ⟨by norm_num [Prod.ext_iff], by norm_num,
    probability_extraction_in_unit_interval (0, 0) (1, 0)
      (by norm_num [Prod.ext_iff]) (by norm_num)⟩

/-- C2 (counterexample to the claim as stated): with `refer_0 = (0,0)` and
`refer_1 = (-1,0)` (a valid pair, `refer_0 ≠ refer_1`), the extraction at
`data = refer_1` returns `0`, not `1`: `np.sign(0) = 0` makes the rotation
angle `arccos(-1) * 0 = 0`, the rotated `refer_1` x-coordinate stays `-1`,
and the clip maps the data to `0`. -/
theorem probability_extraction_counterexample :
    (((0 : ℝ), (0 : ℝ)) ≠ ((-1 : ℝ), (0 : ℝ))) ∧
    probability_extraction (-1, 0) (0, 0) (-1, 0) = 0 ∧
    probability_extraction (-1, 0) (0, 0) (-1, 0) ≠ 1 := by
  have hval : probability_extraction (-1, 0) (0, 0) (-1, 0) = 0 := by
    simp only [probability_extraction]
    norm_num [Real.sqrt_one, Real.arccos_neg_one, Real.sign_zero,
      Real.cos_zero, Real.sin_zero]
  exact ⟨by norm_num [Prod.ext_iff], hval, by rw [hval]; norm_num⟩
